import Mathlib

/-!
Shallow embedding of `markdown2html.py`: a line-oriented Markdown-to-HTML
converter.  Text is modelled as `List Char`; a document is a `List Line`.
Python's `re.sub` with the four non-greedy inline patterns is embedded as a
left-to-right scanner (`subNG`); `str.strip()` as `pystrip` over the ASCII
whitespace characters that Python strips.
-/

abbrev Line := List Char

/-- ASCII fragment of Python's whitespace class (`str.strip()` / regex `\s`):
space, tab, newline, carriage return, vertical tab, form feed. -/
def pyIsSpace (c : Char) : Bool :=
  c = ' ' || c = '\t' || c = '\n' || c = '\r' || c = Char.ofNat 11 || c = Char.ofNat 12

/-- Python `str.rstrip()`: drop trailing whitespace. -/
def pyrstrip (s : List Char) : List Char :=
  (s.reverse.dropWhile pyIsSpace).reverse

/-- Python `str.strip()`: drop leading and trailing whitespace. -/
def pystrip (s : List Char) : List Char :=
  pyrstrip (s.dropWhile pyIsSpace)

/-- `pat` occurs as a contiguous substring of the second argument. -/
def hasSubstr (pat : List Char) : List Char → Bool
  | [] => pat.isEmpty
  | c :: cs => pat.isPrefixOf (c :: cs) || hasSubstr pat cs

/-- Locate the closing delimiter `cc` (non-greedy): return the shortest
newline-free body together with the remainder after the closer, as the lazy
group `(.*?)` of Python's regexes does (`.` does not match a newline). -/
def findClose (c : Char) : List Char → Option (List Char × List Char)
  | x :: y :: rest =>
    if x = c ∧ y = c then some ([], rest)
    else if x = '\n' then none
    else
      match findClose c (y :: rest) with
      | some (b, r) => some (x :: b, r)
      | none => none
  | _ => none

/-- One `re.sub` pass for a pattern `oo(.*?)cc` with doubled one-character
delimiters: scan left to right, replace each leftmost non-greedy match by
`wrap body`, and continue after the match.  `fuel` only drives the
recursion; any `fuel ≥ length` computes the pass. -/
def subNG (o c : Char) (wrap : List Char → List Char) : Nat → List Char → List Char
  | _, [] => []
  | 0, s => s
  | _ + 1, [x] => [x]
  | f + 1, x :: y :: rest =>
    if x = o ∧ y = o then
      match findClose c rest with
      | some (b, r) => wrap b ++ subNG o c wrap f r
      | none => x :: subNG o c wrap f (y :: rest)
    else x :: subNG o c wrap f (y :: rest)

/-- `re.sub(r'\*\*(.*?)\*\*', r'<b>\1</b>', text)` -/
def boldPass (s : List Char) : List Char :=
  subNG '*' '*' (fun b => "<b>".data ++ b ++ "</b>".data) s.length s

/-- `re.sub(r'__(.*?)__', r'<em>\1</em>', text)` -/
def emPass (s : List Char) : List Char :=
  subNG '_' '_' (fun b => "<em>".data ++ b ++ "</em>".data) s.length s

/-! ### MD5 (`hashlib.md5(text.encode()).hexdigest()`), on `Nat` mod `2 ^ 32` -/

/-- UTF-8 encoding of one character, as byte values (Python `str.encode()`). -/
def utf8Bytes (ch : Char) : List Nat :=
  let n := ch.toNat
  if n < 0x80 then [n]
  else if n < 0x800 then [0xC0 + n / 0x40, 0x80 + n % 0x40]
  else if n < 0x10000 then
    [0xE0 + n / 0x1000, 0x80 + n / 0x40 % 0x40, 0x80 + n % 0x40]
  else
    [0xF0 + n / 0x40000, 0x80 + n / 0x1000 % 0x40, 0x80 + n / 0x40 % 0x40,
     0x80 + n % 0x40]

/-- Addition modulo `2 ^ 32`. -/
def wadd (a b : Nat) : Nat := (a + b) % 4294967296

/-- Bitwise complement on 32-bit words. -/
def wnot (a : Nat) : Nat := 4294967295 - a % 4294967296

/-- Left rotation of a 32-bit word by `n` (for `0 < n < 32`). -/
def rotl (x n : Nat) : Nat :=
  (x % 4294967296 * 2 ^ n) % 4294967296 + x % 4294967296 / 2 ^ (32 - n)

/-- MD5 per-round sine-table constants. -/
def md5K : List Nat :=
  [0xd76aa478, 0xe8c7b756, 0x242070db, 0xc1bdceee,
   0xf57c0faf, 0x4787c62a, 0xa8304613, 0xfd469501,
   0x698098d8, 0x8b44f7af, 0xffff5bb1, 0x895cd7be,
   0x6b901122, 0xfd987193, 0xa679438e, 0x49b40821,
   0xf61e2562, 0xc040b340, 0x265e5a51, 0xe9b6c7aa,
   0xd62f105d, 0x02441453, 0xd8a1e681, 0xe7d3fbc8,
   0x21e1cde6, 0xc33707d6, 0xf4d50d87, 0x455a14ed,
   0xa9e3e905, 0xfcefa3f8, 0x676f02d9, 0x8d2a4c8a,
   0xfffa3942, 0x8771f681, 0x6d9d6122, 0xfde5380c,
   0xa4beea44, 0x4bdecfa9, 0xf6bb4b60, 0xbebfbc70,
   0x289b7ec6, 0xeaa127fa, 0xd4ef3085, 0x04881d05,
   0xd9d4d039, 0xe6db99e5, 0x1fa27cf8, 0xc4ac5665,
   0xf4292244, 0x432aff97, 0xab9423a7, 0xfc93a039,
   0x655b59c3, 0x8f0ccc92, 0xffeff47d, 0x85845dd1,
   0x6fa87e4f, 0xfe2ce6e0, 0xa3014314, 0x4e0811a1,
   0xf7537e82, 0xbd3af235, 0x2ad7d2bb, 0xeb86d391]

/-- MD5 per-round left-rotation amounts. -/
def md5S : List Nat :=
  [7, 12, 17, 22, 7, 12, 17, 22, 7, 12, 17, 22, 7, 12, 17, 22,
   5, 9, 14, 20, 5, 9, 14, 20, 5, 9, 14, 20, 5, 9, 14, 20,
   4, 11, 16, 23, 4, 11, 16, 23, 4, 11, 16, 23, 4, 11, 16, 23,
   6, 10, 15, 21, 6, 10, 15, 21, 6, 10, 15, 21, 6, 10, 15, 21]

/-- MD5 round function and message-word index for round `i`. -/
def md5F (i b c d : Nat) : Nat × Nat :=
  if i < 16 then ((b &&& c) ||| (wnot b &&& d), i)
  else if i < 32 then ((d &&& b) ||| (wnot d &&& c), (5 * i + 1) % 16)
  else if i < 48 then (b ^^^ c ^^^ d, (3 * i + 5) % 16)
  else (c ^^^ (b ||| wnot d), 7 * i % 16)

/-- Process one 512-bit chunk given as 16 little-endian 32-bit words. -/
def md5Chunk (hs : Nat × Nat × Nat × Nat) (M : List Nat) : Nat × Nat × Nat × Nat :=
  let step := fun (st : Nat × Nat × Nat × Nat) (i : Nat) =>
    let (a, b, c, d) := st
    let (f, g) := md5F i b c d
    let t := wadd (wadd (wadd f a) (md5K.getD i 0)) (M.getD g 0)
    (d, wadd b (rotl t (md5S.getD i 0)), b, c)
  let (a, b, c, d) := (List.range 64).foldl step hs
  (wadd hs.1 a, wadd hs.2.1 b, wadd hs.2.2.1 c, wadd hs.2.2.2 d)

/-- `n` little-endian bytes of `v`. -/
def leBytes : Nat → Nat → List Nat
  | 0, _ => []
  | n + 1, v => v % 256 :: leBytes n (v / 256)

/-- MD5 padding: append `0x80`, zero bytes to 56 mod 64, then the bit length
as 8 little-endian bytes. -/
def md5Pad (msg : List Nat) : List Nat :=
  let padLen := (56 + 64 - (msg.length + 1) % 64) % 64
  msg ++ [0x80] ++ List.replicate padLen 0 ++ leBytes 8 (8 * msg.length % 2 ^ 64)

/-- Group bytes into little-endian 32-bit words (input length a multiple of 4). -/
def toWords : List Nat → List Nat
  | b0 :: b1 :: b2 :: b3 :: rest =>
    (b0 + 256 * b1 + 65536 * b2 + 16777216 * b3) :: toWords rest
  | _ => []

/-- Fold `md5Chunk` over 64-byte chunks; `fuel ≥ bytes.length` suffices. -/
def md5Blocks : Nat → Nat × Nat × Nat × Nat → List Nat → Nat × Nat × Nat × Nat
  | _, hs, [] => hs
  | 0, hs, _ => hs
  | f + 1, hs, bytes => md5Blocks f (md5Chunk hs (toWords (bytes.take 64))) (bytes.drop 64)

/-- Lowercase hexadecimal digit for `n ≤ 15`. -/
def hexDigit (n : Nat) : Char := "0123456789abcdef".data.getD n '0'

/-- Two lowercase hex digits of a byte. -/
def byteHex (b : Nat) : List Char := [hexDigit (b / 16), hexDigit (b % 16)]

/-- `md5_hash(text)`: lowercase hex digest of the MD5 hash of the UTF-8 bytes
of `text` (source lines 14-18). -/
def md5_hash (text : List Char) : List Char :=
  let bytes := md5Pad ((text.map utf8Bytes).flatten)
  let r := md5Blocks bytes.length (0x67452301, 0xefcdab89, 0x98badcfe, 0x10325476) bytes
  ((leBytes 4 r.1 ++ leBytes 4 r.2.1 ++ leBytes 4 r.2.2.1 ++ leBytes 4 r.2.2.2).map byteHex).flatten

/-- `remove_c(text)`: `re.sub(r'[cC]', '', text)` (source lines 21-25). -/
def remove_c (text : List Char) : List Char :=
  text.filter (fun ch => !(ch = 'c' || ch = 'C'))

/-- `re.sub(r'\[\[(.*?)\]\]', lambda m: md5_hash(m.group(1)), text)` -/
def hashPass (s : List Char) : List Char :=
  subNG '[' ']' md5_hash s.length s

/-- `re.sub(r'\(\((.*?)\)\)', lambda m: remove_c(m.group(1)), text)` -/
def parenPass (s : List Char) : List Char :=
  subNG '(' ')' remove_c s.length s

/-- `parse_inline_markdown(text)`: the four substitution passes in source
order (source lines 28-42). -/
def parse_inline_markdown (text : List Char) : List Char :=
  parenPass (hashPass (emPass (boldPass text)))

/-! ### Block parser -/

/-- Length of the leading run of `#` characters. -/
def leadingHashes : List Char → Nat
  | [] => 0
  | c :: cs => if c = '#' then leadingHashes cs + 1 else 0

/-- `parse_headings(line)` (source lines 45-55): `re.match` of
`^(#{1,6})\s(.+)$` — a run of 1-6 `#`, one whitespace character, then
non-empty content (`.` excludes newlines; `$` also matches just before one
trailing newline); on a match, emit `<h{level}>{inline(content)}</h{level}>\n`. -/
def parse_headings (line : List Char) : Option (List Char) :=
  let k := leadingHashes line
  if 1 ≤ k ∧ k ≤ 6 then
    match line.drop k with
    | [] => none
    | w :: rest =>
      if pyIsSpace w then
        let content := rest.takeWhile (fun c => c ≠ '\n')
        let tail := rest.drop content.length
        if content ≠ [] ∧ (tail = [] ∨ tail = ['\n']) then
          some ("<h".data ++ (Nat.repr k).data ++ ">".data
            ++ parse_inline_markdown content
            ++ "</h".data ++ (Nat.repr k).data ++ ">".data ++ ['\n'])
        else none
      else none
  else none

/-- `parse_unordered_list(lines)` (source lines 58-73): if the first line
starts with `- `, collect the leading run of `- ` lines (the `for`/`break`
loop), wrap each remainder in `<li>`, join with newlines inside
`<ul>`/`</ul>`, and report `len(html_list) - 2` as the count. -/
def parse_unordered_list (lines : List Line) : Option (List Char × Nat) :=
  match lines with
  | [] => none
  | l :: _ =>
    if (['-', ' ']).isPrefixOf l then
      let items := lines.takeWhile (fun x => (['-', ' ']).isPrefixOf x)
      let htmlList := "<ul>".data ::
        items.map (fun x => "<li>".data ++ parse_inline_markdown (pystrip (x.drop 2)) ++ "</li>".data)
        ++ ["</ul>".data]
      some (List.intercalate ['\n'] htmlList ++ ['\n'], htmlList.length - 2)
    else none

/-- `parse_ordered_list(lines)` (source lines 76-91): as the unordered case
with prefix `* ` and wrapper `<ol>`/`</ol>`. -/
def parse_ordered_list (lines : List Line) : Option (List Char × Nat) :=
  match lines with
  | [] => none
  | l :: _ =>
    if (['*', ' ']).isPrefixOf l then
      let items := lines.takeWhile (fun x => (['*', ' ']).isPrefixOf x)
      let htmlList := "<ol>".data ::
        items.map (fun x => "<li>".data ++ parse_inline_markdown (pystrip (x.drop 2)) ++ "</li>".data)
        ++ ["</ol>".data]
      some (List.intercalate ['\n'] htmlList ++ ['\n'], htmlList.length - 2)
    else none

/-- `parse_paragraph(lines)` (source lines 94-109): if the first line is
non-blank, collect lines until a blank one, interleave `<br/>` entries
between consecutive contents, join with newlines inside `<p>`/`</p>`, and
report `len(html_para) - 2` as the count. -/
def parse_paragraph (lines : List Line) : Option (List Char × Nat) :=
  match lines with
  | [] => none
  | l :: _ =>
    if pystrip l = [] then none
    else
      let consumed := lines.takeWhile (fun x => pystrip x ≠ [])
      let body :=
        match consumed with
        | [] => []
        | c0 :: cs =>
          parse_inline_markdown (pystrip c0) ::
            cs.flatMap (fun x => ["<br/>".data, parse_inline_markdown (pystrip x)])
      let htmlPara := "<p>".data :: body ++ ["</p>".data]
      some (List.intercalate ['\n'] htmlPara ++ ['\n'], htmlPara.length - 2)

/-- One iteration of the `while` loop of `convert_markdown_to_html` (source
lines 119-154) on the suffix `lines[i:]`: the emitted fragment and the
amount the cursor advances (heading and fallback advance by 1, the other
checks by the count they report). -/
def scanStep (ls : List Line) : List Char × Nat :=
  match ls with
  | [] => ([], 1)
  | l :: _ =>
    match parse_headings (pystrip l) with
    | some h => (h, 1)
    | none =>
      match parse_unordered_list ls with
      | some (html, n) => (html, n)
      | none =>
        match parse_ordered_list ls with
        | some (html, n) => (html, n)
        | none =>
          match parse_paragraph ls with
          | some (html, n) => (html, n)
          | none => ([], 1)

/-- The scanning loop of `convert_markdown_to_html`; `fuel ≥ lines.length - i`
computes the loop, since every step advances the cursor by at least 1. -/
def convertLoop : Nat → List Line → Nat → List Char
  | 0, _, _ => []
  | f + 1, lines, i =>
    if i < lines.length then
      let st := scanStep (lines.drop i)
      st.1 ++ convertLoop f lines (i + st.2)
    else []

/-- The loop from cursor position `i`. -/
def convertFrom (lines : List Line) (i : Nat) : List Char :=
  convertLoop lines.length lines i

/-- `convert_markdown_to_html` (source lines 112-154) on the line sequence
read by the file collaborator: the concatenation of all written fragments. -/
def convert_markdown_to_html (lines : List Line) : List Char :=
  convertFrom lines 0

/-! ### Driver (`main`, source lines 157-177) -/

/-- Observable outcome of `main`: which message/exit path is taken and
whether the conversion runs. -/
inductive DriverResult
  | usage
  | missing (input : String)
  | ok (input output : String)
deriving DecidableEq

/-- `main()` (source lines 157-177) as a function of the argument vector
(`sys.argv`, script name included) and the file-existence collaborator
(`os.path.exists`): fewer than 3 entries reports usage; a missing input
file reports `Missing {input}`; otherwise the conversion runs. -/
def pyMain (argv : List String) (pathExists : String → Bool) : DriverResult :=
  match argv with
  | _ :: input :: output :: _ =>
    if pathExists input then .ok input output else .missing input
  | _ => .usage

/-- Exit code passed to `sys.exit` on each path of `main`. -/
def exitCodeOf : DriverResult → Nat
  | .ok _ _ => 0
  | _ => 1

/-- Text written to `sys.stderr` on each path of `main`. -/
def stderrOf : DriverResult → List Char
  | .usage => "Usage: ./markdown2html.py README.md README.html\n".data
  | .missing input => "Missing ".data ++ input.data ++ ['\n']
  | .ok _ _ => []

/-- Heading shape stated from the claim's words: 1-6 leading `#`, exactly
one space character, then non-empty content. -/
def SpecHeadingSpace (t : List Char) : Prop :=
  ∃ k c, 1 ≤ k ∧ k ≤ 6 ∧ c ≠ [] ∧ t = List.replicate k '#' ++ ' ' :: c

/-- Amended heading shape: the single separator may be any whitespace
character, as the source's `\s` accepts. -/
def SpecHeadingWs (t : List Char) : Prop :=
  ∃ k w c, 1 ≤ k ∧ k ≤ 6 ∧ pyIsSpace w = true ∧ c ≠ [] ∧
    t = List.replicate k '#' ++ w :: c


/-! ### Lemmas about the substitution engine -/

lemma subNG_nil {o c : Char} {w : List Char → List Char} (f : Nat) :
    subNG o c w f [] = [] := by
  cases f <;> rfl

lemma subNG_zero {o c : Char} {w : List Char → List Char} (s : List Char) :
    subNG o c w 0 s = s := by
  cases s <;> rfl

lemma subNG_single {o c : Char} {w : List Char → List Char} (f : Nat) (x : Char) :
    subNG o c w (f + 1) [x] = [x] := rfl

lemma subNG_cons2 {o c : Char} {w : List Char → List Char} (f : Nat) (x y : Char)
    (rest : List Char) :
    subNG o c w (f + 1) (x :: y :: rest) =
      if x = o ∧ y = o then
        match findClose c rest with
        | some (b, r) => w b ++ subNG o c w f r
        | none => x :: subNG o c w f (y :: rest)
      else x :: subNG o c w f (y :: rest) := rfl

lemma findClose_len {c : Char} :
    ∀ s b r, findClose c s = some (b, r) → b.length + 2 + r.length = s.length := by
  intro s
  induction s with
  | nil => intro b r h; simp [findClose] at h
  | cons x t ih =>
    intro b r h
    cases t with
    | nil => simp [findClose] at h
    | cons y rest =>
      rw [findClose] at h
      by_cases hxy : x = c ∧ y = c
      · rw [if_pos hxy] at h
        injection h with h'
        injection h' with h1 h2
        subst h1; subst h2
        simp; omega
      · rw [if_neg hxy] at h
        by_cases hnl : x = '\n'
        · rw [if_pos hnl] at h; exact absurd h (by simp)
        · rw [if_neg hnl] at h
          cases hfc : findClose c (y :: rest) with
          | none => rw [hfc] at h; exact absurd h (by simp)
          | some p =>
            obtain ⟨b', r'⟩ := p
            rw [hfc] at h
            injection h with h'
            injection h' with h1 h2
            subst h1; subst h2
            have := ih b' r' hfc
            simp at this ⊢
            omega

lemma hasSubstr_cons_elim {pat : List Char} {x : Char} {t : List Char}
    (h : hasSubstr pat (x :: t) = false) :
    pat.isPrefixOf (x :: t) = false ∧ hasSubstr pat t = false := by
  simpa [hasSubstr] using h

lemma isPrefixOf_pair {a b x y : Char} {t : List Char} :
    [a, b].isPrefixOf (x :: y :: t) = (a == x && b == y) := by
  simp [List.isPrefixOf]

lemma subNG_id {o c : Char} {w : List Char → List Char} :
    ∀ s, hasSubstr [o, o] s = false → ∀ f, subNG o c w f s = s := by
  intro s
  induction s with
  | nil => intro _ f; exact subNG_nil f
  | cons x t ih =>
    intro hs f
    obtain ⟨hpre, ht⟩ := hasSubstr_cons_elim hs
    cases f with
    | zero => exact subNG_zero _
    | succ f =>
      cases t with
      | nil => rfl
      | cons y rest =>
        rw [subNG_cons2]
        have hno : ¬(x = o ∧ y = o) := by
          intro ⟨h1, h2⟩
          subst h1; subst h2
          rw [isPrefixOf_pair] at hpre
          simp at hpre
        rw [if_neg hno]
        rw [ih ht f]

lemma hasSubstr_of_not_mem {a : Char} :
    ∀ s : List Char, a ∉ s → hasSubstr [a, a] s = false := by
  intro s
  induction s with
  | nil => intro _; rfl
  | cons x t ih =>
    intro h
    have hxa : ¬(a = x) := fun hc => h (by rw [hc]; exact List.mem_cons_self x t)
    have hat : a ∉ t := fun hc => h (List.mem_cons_of_mem x hc)
    simp [hasSubstr, ih hat]
    cases t with
    | nil => simp [List.isPrefixOf, hxa]
    | cons y r => rw [isPrefixOf_pair]; simp [hxa]

lemma getLast?_cons_of_ne_nil {x : Char} {t : List Char} (h : t ≠ []) :
    (x :: t).getLast? = t.getLast? := by
  cases t with
  | nil => exact absurd rfl h
  | cons y r => simp [List.getLast?_cons_cons]

lemma findClose_append {c : Char} :
    ∀ X r, hasSubstr [c, c] X = false → X.getLast? ≠ some c → '\n' ∉ X →
      findClose c (X ++ c :: c :: r) = some (X, r) := by
  intro X
  induction X with
  | nil =>
    intro r _ _ _
    simp [findClose]
  | cons x t ih =>
    intro r hsub hlast hnl
    obtain ⟨hpre, ht⟩ := hasSubstr_cons_elim hsub
    have hxnl : ¬(x = '\n') := fun hc => hnl (by rw [hc]; exact List.mem_cons_self _ _)
    cases t with
    | nil =>
      have hxc : ¬(x = c) := by
        intro hc; apply hlast; simp [hc]
      rw [List.cons_append, List.nil_append, findClose,
        if_neg (by intro hh; exact hxc hh.1), if_neg hxnl]
      have h0 := ih r (by rfl) (by simp) (by simp)
      rw [List.nil_append] at h0
      rw [h0]
    | cons z t' =>
      have hxz : ¬(x = c ∧ z = c) := by
        intro hh
        have h1 := hh.1; have h2 := hh.2
        subst h1; subst h2
        rw [isPrefixOf_pair] at hpre
        simp at hpre
      have hrec := ih r ht
        (by
          intro hc; apply hlast
          rw [getLast?_cons_of_ne_nil (by simp)]; exact hc)
        (fun hc => hnl (List.mem_cons_of_mem x hc))
      rw [List.cons_append] at hrec
      rw [List.cons_append, List.cons_append, findClose,
        if_neg hxz, if_neg hxnl, hrec]

lemma subNG_fuel {o c : Char} {w : List Char → List Char} :
    ∀ f1 s f2, s.length ≤ f1 → s.length ≤ f2 →
      subNG o c w f1 s = subNG o c w f2 s := by
  intro f1
  induction f1 with
  | zero =>
    intro s f2 h1 _
    have : s = [] := List.eq_nil_of_length_eq_zero (Nat.le_zero.mp h1)
    subst this
    rw [subNG_nil, subNG_nil]
  | succ a ih =>
    intro s f2 h1 h2
    cases s with
    | nil => rw [subNG_nil, subNG_nil]
    | cons x t =>
      cases f2 with
      | zero => simp at h2
      | succ b =>
        cases t with
        | nil => rfl
        | cons y rest =>
          rw [subNG_cons2, subNG_cons2]
          simp only [List.length_cons] at h1 h2
          by_cases hxy : x = o ∧ y = o
          · rw [if_pos hxy, if_pos hxy]
            cases hfc : findClose c rest with
            | none =>
              simp only []
              rw [ih (y :: rest) b (by simp; omega) (by simp; omega)]
            | some p =>
              obtain ⟨bb, r⟩ := p
              have hl := findClose_len rest bb r hfc
              simp only []
              rw [ih r b (by omega) (by omega)]
          · rw [if_neg hxy, if_neg hxy]
            rw [ih (y :: rest) b (by simp; omega) (by simp; omega)]

lemma subNG_occ {o c : Char} {w : List Char → List Char} :
    ∀ p X rest, hasSubstr [o, o] p = false → p.getLast? ≠ some o →
      hasSubstr [c, c] X = false → X.getLast? ≠ some c → '\n' ∉ X →
      ∀ f, (p ++ o :: o :: (X ++ c :: c :: rest)).length ≤ f →
      subNG o c w f (p ++ o :: o :: (X ++ c :: c :: rest)) =
        p ++ w X ++ subNG o c w rest.length rest := by
  intro p
  induction p with
  | nil =>
    intro X rest _ _ hX hXl hXn f hf
    simp only [List.nil_append] at hf ⊢
    cases f with
    | zero => simp at hf
    | succ f' =>
      rw [subNG_cons2, if_pos ⟨rfl, rfl⟩, findClose_append X rest hX hXl hXn]
      simp only []
      rw [subNG_fuel f' rest rest.length
        (by simp [List.length_append] at hf; omega) (le_refl _)]
  | cons a p' ih =>
    intro X rest hp hpl hX hXl hXn f hf
    obtain ⟨hpre, hp'⟩ := hasSubstr_cons_elim hp
    cases f with
    | zero => simp at hf
    | succ f' =>
      have hf2 : (p' ++ o :: o :: (X ++ c :: c :: rest)).length ≤ f' := by
        simp [List.length_append] at hf ⊢
        omega
      cases hc : p' with
      | nil =>
        subst hc
        have hao : ¬(a = o) := by
          intro hh; apply hpl; simp [hh]
        rw [List.cons_append, List.nil_append, subNG_cons2,
          if_neg (by intro hh; exact hao hh.1)]
        have hrec := ih X rest (by rfl) (by simp) hX hXl hXn f' hf2
        simp only [List.nil_append] at hrec
        rw [hrec]
        simp
      | cons z p'' =>
        subst hc
        have haz : ¬(a = o ∧ z = o) := by
          intro hh
          have h1 := hh.1; have h2 := hh.2
          subst h1; subst h2
          rw [isPrefixOf_pair] at hpre
          simp at hpre
        have hrec := ih X rest hp'
          (by
            intro hcc; apply hpl
            rw [getLast?_cons_of_ne_nil (by simp)]; exact hcc)
          hX hXl hXn f' hf2
        rw [List.cons_append, List.cons_append, subNG_cons2]
        rw [List.cons_append] at hrec
        rw [if_neg haz, hrec]
        simp

lemma getLast?_ne_of_forall {a : Char} {s : List Char}
    (h : ∀ ch ∈ s, ch ≠ a) : s.getLast? ≠ some a := by
  intro hg
  have hmem : a ∈ s.getLast? := by rw [hg]; rfl
  obtain ⟨hne, heq⟩ := List.mem_getLast?_eq_getLast hmem
  have : a ∈ s := by rw [heq]; exact List.getLast_mem hne
  exact h a this rfl

lemma boldPass_occ {p X rest : List Char}
    (hp : hasSubstr ['*', '*'] p = false) (hpl : p.getLast? ≠ some '*')
    (hX : hasSubstr ['*', '*'] X = false) (hXl : X.getLast? ≠ some '*')
    (hXn : '\n' ∉ X) :
    boldPass (p ++ '*' :: '*' :: (X ++ '*' :: '*' :: rest)) =
      p ++ "<b>".data ++ X ++ "</b>".data ++ boldPass rest := by
  unfold boldPass
  rw [subNG_occ p X rest hp hpl hX hXl hXn _ (le_refl _)]
  simp [List.append_assoc]

lemma emPass_occ {p X rest : List Char}
    (hp : hasSubstr ['_', '_'] p = false) (hpl : p.getLast? ≠ some '_')
    (hX : hasSubstr ['_', '_'] X = false) (hXl : X.getLast? ≠ some '_')
    (hXn : '\n' ∉ X) :
    emPass (p ++ '_' :: '_' :: (X ++ '_' :: '_' :: rest)) =
      p ++ "<em>".data ++ X ++ "</em>".data ++ emPass rest := by
  unfold emPass
  rw [subNG_occ p X rest hp hpl hX hXl hXn _ (le_refl _)]
  simp [List.append_assoc]

lemma hashPass_occ {p X rest : List Char}
    (hp : hasSubstr ['[', '['] p = false) (hpl : p.getLast? ≠ some '[')
    (hX : hasSubstr [']', ']'] X = false) (hXl : X.getLast? ≠ some ']')
    (hXn : '\n' ∉ X) :
    hashPass (p ++ '[' :: '[' :: (X ++ ']' :: ']' :: rest)) =
      p ++ md5_hash X ++ hashPass rest := by
  unfold hashPass
  rw [subNG_occ p X rest hp hpl hX hXl hXn _ (le_refl _)]

lemma parenPass_occ {p X rest : List Char}
    (hp : hasSubstr ['(', '('] p = false) (hpl : p.getLast? ≠ some '(')
    (hX : hasSubstr [')', ')'] X = false) (hXl : X.getLast? ≠ some ')')
    (hXn : '\n' ∉ X) :
    parenPass (p ++ '(' :: '(' :: (X ++ ')' :: ')' :: rest)) =
      p ++ remove_c X ++ parenPass rest := by
  unfold parenPass
  rw [subNG_occ p X rest hp hpl hX hXl hXn _ (le_refl _)]

lemma boldPass_id {s : List Char} (h : hasSubstr ['*', '*'] s = false) :
    boldPass s = s := subNG_id s h _

lemma emPass_id {s : List Char} (h : hasSubstr ['_', '_'] s = false) :
    emPass s = s := subNG_id s h _

lemma hashPass_id {s : List Char} (h : hasSubstr ['[', '['] s = false) :
    hashPass s = s := subNG_id s h _

lemma parenPass_id {s : List Char} (h : hasSubstr ['(', '('] s = false) :
    parenPass s = s := subNG_id s h _

/-- C8: on text containing none of the markup delimiter pairs, the inline
transformer is the identity. -/
theorem inline_identity (X : List Char)
    (h1 : hasSubstr ['*', '*'] X = false) (h2 : hasSubstr ['_', '_'] X = false)
    (h3 : hasSubstr ['[', '['] X = false) (h4 : hasSubstr ['(', '('] X = false)
    (h5 : hasSubstr [']', ']'] X = false) (h6 : hasSubstr [')', ')'] X = false) :
    parse_inline_markdown X = X := by
  unfold parse_inline_markdown
  rw [boldPass_id h1, emPass_id h2, hashPass_id h3, parenPass_id h4]

theorem inline_identity_witness : parse_inline_markdown "hello world!".data = "hello world!".data :=
  inline_identity "hello world!".data (by decide) (by decide) (by decide)
    (by decide) (by decide) (by decide)

lemma hasSubstr_double_of_forall {a : Char} {s : List Char}
    (h : ∀ ch ∈ s, ch ≠ a) : hasSubstr [a, a] s = false :=
  hasSubstr_of_not_mem s (fun hm => h a hm rfl)

lemma not_mem_wrap {a : Char} {pre post X : List Char}
    (h1 : a ∉ pre) (h2 : a ∉ X) (h3 : a ∉ post) : a ∉ pre ++ X ++ post := by
  simp only [List.mem_append]
  rintro (⟨hp | hx⟩ | hq)
  · exact h1 hp
  · exact h2 hx
  · exact h3 hq

/-- C4: the bold pass rewrites each non-greedy `**X**` occurrence to
`<b>X</b>` and the underscore pass rewrites each non-greedy `__X__`
occurrence to `<em>X</em>` (asymmetric tag mapping); on plain non-empty
content the whole inline transformer realizes both mappings. -/
theorem inline_bold_em :
    (∀ p X rest : List Char,
       hasSubstr ['*', '*'] p = false → p.getLast? ≠ some '*' →
       X ≠ [] → hasSubstr ['*', '*'] X = false → X.getLast? ≠ some '*' → '\n' ∉ X →
       boldPass (p ++ '*' :: '*' :: (X ++ '*' :: '*' :: rest)) =
         p ++ "<b>".data ++ X ++ "</b>".data ++ boldPass rest)
  ∧ (∀ p X rest : List Char,
       hasSubstr ['_', '_'] p = false → p.getLast? ≠ some '_' →
       X ≠ [] → hasSubstr ['_', '_'] X = false → X.getLast? ≠ some '_' → '\n' ∉ X →
       emPass (p ++ '_' :: '_' :: (X ++ '_' :: '_' :: rest)) =
         p ++ "<em>".data ++ X ++ "</em>".data ++ emPass rest)
  ∧ (∀ X : List Char, X ≠ [] →
       (∀ ch ∈ X, ch ≠ '*' ∧ ch ≠ '_' ∧ ch ≠ '[' ∧ ch ≠ '(' ∧ ch ≠ '\n') →
       parse_inline_markdown ('*' :: '*' :: (X ++ ['*', '*'])) =
           "<b>".data ++ X ++ "</b>".data
     ∧ parse_inline_markdown ('_' :: '_' :: (X ++ ['_', '_'])) =
           "<em>".data ++ X ++ "</em>".data) := by
  refine ⟨?_, ?_, ?_⟩
  · intro p X rest hp hpl _ hX hXl hXn
    exact boldPass_occ hp hpl hX hXl hXn
  · intro p X rest hp hpl _ hX hXl hXn
    exact emPass_occ hp hpl hX hXl hXn
  · intro X _ hch
    have hstar : ∀ ch ∈ X, ch ≠ '*' := fun ch hm => (hch ch hm).1
    have hund : ∀ ch ∈ X, ch ≠ '_' := fun ch hm => (hch ch hm).2.1
    have hbra : '[' ∉ X := fun hm => (hch '[' hm).2.2.1 rfl
    have hpar : '(' ∉ X := fun hm => (hch '(' hm).2.2.2.1 rfl
    have hnl : '\n' ∉ X := fun hm => (hch '\n' hm).2.2.2.2 rfl
    constructor
    · unfold parse_inline_markdown
      have h1 : boldPass ('*' :: '*' :: (X ++ ['*', '*'])) =
          "<b>".data ++ X ++ "</b>".data := by
        have := @boldPass_occ [] X []
          (by rfl) (by simp) (hasSubstr_double_of_forall hstar)
          (getLast?_ne_of_forall hstar) hnl
        simpa using this
      rw [h1]
      have hu : '_' ∉ "<b>".data ++ X ++ "</b>".data :=
        not_mem_wrap (by decide) (fun hm => hund '_' hm rfl) (by decide)
      have hb : '[' ∉ "<b>".data ++ X ++ "</b>".data :=
        not_mem_wrap (by decide) hbra (by decide)
      have hq : '(' ∉ "<b>".data ++ X ++ "</b>".data :=
        not_mem_wrap (by decide) hpar (by decide)
      rw [emPass_id (hasSubstr_of_not_mem _ hu),
        hashPass_id (hasSubstr_of_not_mem _ hb),
        parenPass_id (hasSubstr_of_not_mem _ hq)]
    · unfold parse_inline_markdown
      have hstar0 : '*' ∉ '_' :: '_' :: (X ++ ['_', '_']) := by
        simp only [List.mem_cons, List.mem_append]
        rintro (h | h | (h | h))
        · exact absurd h.symm (by decide)
        · exact absurd h.symm (by decide)
        · exact hstar '*' h rfl
        · revert h; decide
      rw [boldPass_id (hasSubstr_of_not_mem _ hstar0)]
      have h2 : emPass ('_' :: '_' :: (X ++ ['_', '_'])) =
          "<em>".data ++ X ++ "</em>".data := by
        have := @emPass_occ [] X []
          (by rfl) (by simp) (hasSubstr_double_of_forall hund)
          (getLast?_ne_of_forall hund) hnl
        simpa using this
      rw [h2]
      have hb : '[' ∉ "<em>".data ++ X ++ "</em>".data :=
        not_mem_wrap (by decide) hbra (by decide)
      have hq : '(' ∉ "<em>".data ++ X ++ "</em>".data :=
        not_mem_wrap (by decide) hpar (by decide)
      rw [hashPass_id (hasSubstr_of_not_mem _ hb),
        parenPass_id (hasSubstr_of_not_mem _ hq)]

theorem inline_bold_em_witness :
    parse_inline_markdown "**bold**".data = "<b>bold</b>".data
  ∧ parse_inline_markdown "__em__".data = "<em>em</em>".data := by
  constructor
  · have h := (inline_bold_em.2.2 "bold".data (by decide) (by decide)).1
    exact h.trans (by decide)
  · have h := (inline_bold_em.2.2 "em".data (by decide) (by decide)).2
    exact h.trans (by decide)

lemma leBytes_length : ∀ n v, (leBytes n v).length = n := by
  intro n
  induction n with
  | zero => intro v; rfl
  | succ m ih => intro v; simp [leBytes, ih]

lemma leBytes_lt : ∀ n v, ∀ b ∈ leBytes n v, b < 256 := by
  intro n
  induction n with
  | zero => intro v b hb; simp [leBytes] at hb
  | succ m ih =>
    intro v b hb
    simp only [leBytes, List.mem_cons] at hb
    rcases hb with h | h
    · subst h; exact Nat.mod_lt _ (by omega)
    · exact ih _ b h

lemma hexDigit_mem : ∀ n, hexDigit n ∈ "0123456789abcdef".data := by
  intro n
  rcases Nat.lt_or_ge n 16 with h | h
  · interval_cases n <;> decide
  · unfold hexDigit
    rw [List.getD_eq_default]
    · decide
    · simpa using h

lemma flatten_byteHex_length : ∀ l : List Nat, ((l.map byteHex).flatten).length = 2 * l.length := by
  intro l
  induction l with
  | nil => rfl
  | cons b t ih => simp [byteHex, ih]; omega

lemma flatten_byteHex_mem : ∀ (l : List Nat) (ch : Char), ch ∈ (l.map byteHex).flatten →
    ch ∈ "0123456789abcdef".data := by
  intro l
  induction l with
  | nil => intro ch h; simp at h
  | cons b t ih =>
    intro ch h
    simp only [List.map_cons, List.flatten_cons, List.mem_append] at h
    rcases h with h | h
    · simp only [byteHex, List.mem_cons] at h
      rcases h with h | h | h
      · subst h; exact hexDigit_mem _
      · subst h; exact hexDigit_mem _
      · simp at h
    · exact ih ch h

lemma md5_hash_length_chars (X : List Char) :
    (md5_hash X).length = 32 ∧ ∀ ch ∈ md5_hash X, ch ∈ "0123456789abcdef".data := by
  unfold md5_hash
  constructor
  · rw [flatten_byteHex_length]
    simp [leBytes_length]
  · intro ch h
    exact flatten_byteHex_mem _ ch h

/-- C5: the hash pass replaces each non-greedy `[[X]]` occurrence by the MD5
digest of `X` (the literal text is discarded); on plain content the whole
inline transformer realizes this mapping; every digest is a 32-character
string of lowercase hexadecimal digits, and the transform is a function of
`X` alone, hence deterministic. -/
theorem inline_md5 :
    (∀ p X rest : List Char,
       hasSubstr ['[', '['] p = false → p.getLast? ≠ some '[' →
       hasSubstr [']', ']'] X = false → X.getLast? ≠ some ']' → '\n' ∉ X →
       hashPass (p ++ '[' :: '[' :: (X ++ ']' :: ']' :: rest)) =
         p ++ md5_hash X ++ hashPass rest)
  ∧ (∀ X : List Char,
       (∀ ch ∈ X, ch ≠ '*' ∧ ch ≠ '_' ∧ ch ≠ '[' ∧ ch ≠ ']' ∧ ch ≠ '(' ∧ ch ≠ '\n') →
       parse_inline_markdown ('[' :: '[' :: (X ++ [']', ']'])) = md5_hash X)
  ∧ (∀ X : List Char,
       (md5_hash X).length = 32 ∧ ∀ ch ∈ md5_hash X, ch ∈ "0123456789abcdef".data) := by
  refine ⟨?_, ?_, md5_hash_length_chars⟩
  · intro p X rest hp hpl hX hXl hXn
    exact hashPass_occ hp hpl hX hXl hXn
  · intro X hch
    have hket : ∀ ch ∈ X, ch ≠ ']' := fun ch hm => (hch ch hm).2.2.2.1
    have hnl : '\n' ∉ X := fun hm => (hch '\n' hm).2.2.2.2.2 rfl
    unfold parse_inline_markdown
    have hstar0 : '*' ∉ '[' :: '[' :: (X ++ [']', ']']) := by
      simp only [List.mem_cons, List.mem_append]
      rintro (h | h | (h | h))
      · exact absurd h.symm (by decide)
      · exact absurd h.symm (by decide)
      · exact (hch '*' h).1 rfl
      · revert h; decide
    have hund0 : '_' ∉ '[' :: '[' :: (X ++ [']', ']']) := by
      simp only [List.mem_cons, List.mem_append]
      rintro (h | h | (h | h))
      · exact absurd h.symm (by decide)
      · exact absurd h.symm (by decide)
      · exact (hch '_' h).2.1 rfl
      · revert h; decide
    rw [boldPass_id (hasSubstr_of_not_mem _ hstar0),
      emPass_id (hasSubstr_of_not_mem _ hund0)]
    have h3 : hashPass ('[' :: '[' :: (X ++ [']', ']'])) = md5_hash X := by
      have := @hashPass_occ [] X []
        (by rfl) (by simp) (hasSubstr_double_of_forall hket)
        (getLast?_ne_of_forall hket) hnl
      simpa using this
    rw [h3]
    have hq : '(' ∉ md5_hash X := by
      intro hm
      have := (md5_hash_length_chars X).2 '(' hm
      revert this; decide
    rw [parenPass_id (hasSubstr_of_not_mem _ hq)]

set_option maxRecDepth 400000 in
theorem inline_md5_witness :
    parse_inline_markdown "[[abc]]".data = "900150983cd24fb0d6963f7d28e17f72".data := by
  have h := inline_md5.2.1 "abc".data (by decide)
  exact h.trans (by decide)

lemma remove_c_count {ch : Char} (hc : ch ≠ 'c') (hC : ch ≠ 'C') :
    ∀ X : List Char, (remove_c X).count ch = X.count ch := by
  intro X
  induction X with
  | nil => rfl
  | cons x t ih =>
    by_cases hx : x = 'c' ∨ x = 'C'
    · have hne : x ≠ ch := by rintro rfl; rcases hx with h | h; exact hc h; exact hC h
      have h1 : remove_c (x :: t) = remove_c t := by
        rcases hx with hh | hh <;> subst hh <;> rfl
      have h2 : ¬(ch = x) := fun h => hne h.symm
      rw [h1, ih, List.count_cons]
      simp [h2, hne]
    · push_neg at hx
      have : remove_c (x :: t) = x :: remove_c t := by
        simp [remove_c, List.filter, hx.1, hx.2]
      rw [this, List.count_cons, List.count_cons, ih]

/-- C6: the parenthesis pass replaces each non-greedy `((X))` occurrence by
`X` with every `c`/`C` removed; the removal keeps all other characters with
their relative order (a sublist) and their multiplicities; on plain content
the whole inline transformer realizes the mapping. -/
theorem inline_remove_c :
    (∀ p X rest : List Char,
       hasSubstr ['(', '('] p = false → p.getLast? ≠ some '(' →
       hasSubstr [')', ')'] X = false → X.getLast? ≠ some ')' → '\n' ∉ X →
       parenPass (p ++ '(' :: '(' :: (X ++ ')' :: ')' :: rest)) =
         p ++ remove_c X ++ parenPass rest)
  ∧ (∀ X : List Char,
       List.Sublist (remove_c X) X
     ∧ (∀ ch ∈ remove_c X, ch ≠ 'c' ∧ ch ≠ 'C')
     ∧ (∀ ch : Char, ch ≠ 'c' → ch ≠ 'C' → (remove_c X).count ch = X.count ch))
  ∧ (∀ X : List Char,
       (∀ ch ∈ X, ch ≠ '*' ∧ ch ≠ '_' ∧ ch ≠ '[' ∧ ch ≠ '(' ∧ ch ≠ ')' ∧ ch ≠ '\n') →
       parse_inline_markdown ('(' :: '(' :: (X ++ [')', ')'])) = remove_c X) := by
  refine ⟨?_, ?_, ?_⟩
  · intro p X rest hp hpl hX hXl hXn
    exact parenPass_occ hp hpl hX hXl hXn
  · intro X
    refine ⟨List.filter_sublist X, ?_, fun ch hc hC => remove_c_count hc hC X⟩
    intro ch hm
    have := List.of_mem_filter hm
    simpa using this
  · intro X hch
    have hpar : ∀ ch ∈ X, ch ≠ ')' := fun ch hm => (hch ch hm).2.2.2.2.1
    have hnl : '\n' ∉ X := fun hm => (hch '\n' hm).2.2.2.2.2 rfl
    unfold parse_inline_markdown
    have hstar0 : '*' ∉ '(' :: '(' :: (X ++ [')', ')']) := by
      simp only [List.mem_cons, List.mem_append]
      rintro (h | h | (h | h))
      · exact absurd h.symm (by decide)
      · exact absurd h.symm (by decide)
      · exact (hch '*' h).1 rfl
      · revert h; decide
    have hund0 : '_' ∉ '(' :: '(' :: (X ++ [')', ')']) := by
      simp only [List.mem_cons, List.mem_append]
      rintro (h | h | (h | h))
      · exact absurd h.symm (by decide)
      · exact absurd h.symm (by decide)
      · exact (hch '_' h).2.1 rfl
      · revert h; decide
    have hbra0 : '[' ∉ '(' :: '(' :: (X ++ [')', ')']) := by
      simp only [List.mem_cons, List.mem_append]
      rintro (h | h | (h | h))
      · exact absurd h.symm (by decide)
      · exact absurd h.symm (by decide)
      · exact (hch '[' h).2.2.1 rfl
      · revert h; decide
    rw [boldPass_id (hasSubstr_of_not_mem _ hstar0),
      emPass_id (hasSubstr_of_not_mem _ hund0),
      hashPass_id (hasSubstr_of_not_mem _ hbra0)]
    have h4 : parenPass ('(' :: '(' :: (X ++ [')', ')'])) = remove_c X := by
      have hthis := @parenPass_occ [] X []
        (by rfl) (by simp) (hasSubstr_double_of_forall hpar)
        (getLast?_ne_of_forall hpar) hnl
      have hnil : parenPass ([] : List Char) = [] := rfl
      rw [hnil] at hthis
      simpa using hthis
    exact h4

theorem inline_remove_c_witness :
    parse_inline_markdown "((cocoa))".data = "ooa".data := by
  have h := inline_remove_c.2.2 "cocoa".data (by decide)
  exact h.trans (by decide)

/-! ### Lemmas about the block parser -/

lemma pyrstrip_cons_nonspace {x : Char} (l : List Char) (hx : pyIsSpace x = false) :
    ∃ t, pyrstrip (x :: l) = x :: t := by
  unfold pyrstrip
  rw [List.reverse_cons, List.dropWhile_append]
  by_cases he : (l.reverse.dropWhile pyIsSpace).isEmpty
  · rw [if_pos he]
    simp [List.dropWhile, hx]
  · rw [if_neg he]
    exact ⟨(l.reverse.dropWhile pyIsSpace).reverse, by rw [List.reverse_append]; simp⟩

lemma pystrip_cons_nonspace {x : Char} (l : List Char) (hx : pyIsSpace x = false) :
    ∃ t, pystrip (x :: l) = x :: t := by
  unfold pystrip
  rw [List.dropWhile_cons_of_neg (by simp [hx])]
  exact pyrstrip_cons_nonspace l hx

lemma parse_headings_nonhash {x : Char} (t : List Char) (hx : ¬(x = '#')) :
    parse_headings (x :: t) = none := by
  unfold parse_headings
  have h0 : leadingHashes (x :: t) = 0 := by simp [leadingHashes, hx]
  rw [h0]
  simp

lemma isPrefixOf_pair_elim {a b : Char} {l : List Char}
    (h : [a, b].isPrefixOf l = true) : ∃ r, l = a :: b :: r := by
  cases l with
  | nil => simp [List.isPrefixOf] at h
  | cons x t =>
    cases t with
    | nil => simp [List.isPrefixOf] at h
    | cons y r =>
      rw [isPrefixOf_pair] at h
      simp at h
      exact ⟨r, by rw [h.1, h.2]⟩

lemma parse_headings_strip_none_of_nonhash {l : Line} {x : Char} {r : List Char}
    (hl : l = x :: r) (hx : ¬(x = '#')) (hsp : pyIsSpace x = false) :
    parse_headings (pystrip l) = none := by
  subst hl
  obtain ⟨t, ht⟩ := pystrip_cons_nonspace r hsp
  rw [ht]
  exact parse_headings_nonhash t hx

lemma parse_unordered_list_eq {l : Line} (ls : List Line)
    (h : (['-', ' ']).isPrefixOf l = true) :
    parse_unordered_list (l :: ls) =
      some (List.intercalate ['\n'] ("<ul>".data ::
          ((l :: ls).takeWhile (fun x => (['-', ' ']).isPrefixOf x)).map
            (fun x => "<li>".data ++ parse_inline_markdown (pystrip (x.drop 2)) ++ "</li>".data)
          ++ ["</ul>".data]) ++ ['\n'],
        ((l :: ls).takeWhile (fun x => (['-', ' ']).isPrefixOf x)).length) := by
  simp only [parse_unordered_list]
  rw [if_pos h]
  congr 1
  congr 1
  simp

lemma parse_ordered_list_eq {l : Line} (ls : List Line)
    (h : (['*', ' ']).isPrefixOf l = true) :
    parse_ordered_list (l :: ls) =
      some (List.intercalate ['\n'] ("<ol>".data ::
          ((l :: ls).takeWhile (fun x => (['*', ' ']).isPrefixOf x)).map
            (fun x => "<li>".data ++ parse_inline_markdown (pystrip (x.drop 2)) ++ "</li>".data)
          ++ ["</ol>".data]) ++ ['\n'],
        ((l :: ls).takeWhile (fun x => (['*', ' ']).isPrefixOf x)).length) := by
  simp only [parse_ordered_list]
  rw [if_pos h]
  congr 1
  congr 1
  simp

lemma parse_unordered_list_pos {ls : List Line} {html : List Char} {n : Nat}
    (h : parse_unordered_list ls = some (html, n)) : 1 ≤ n := by
  cases ls with
  | nil => simp [parse_unordered_list] at h
  | cons l t =>
    simp only [parse_unordered_list] at h
    by_cases hp : (['-', ' ']).isPrefixOf l = true
    · rw [if_pos hp] at h
      simp only [Option.some.injEq, Prod.mk.injEq] at h
      rw [List.takeWhile_cons_of_pos hp] at h
      simp at h
      omega
    · rw [if_neg hp] at h
      cases h

lemma parse_ordered_list_pos {ls : List Line} {html : List Char} {n : Nat}
    (h : parse_ordered_list ls = some (html, n)) : 1 ≤ n := by
  cases ls with
  | nil => simp [parse_ordered_list] at h
  | cons l t =>
    simp only [parse_ordered_list] at h
    by_cases hp : (['*', ' ']).isPrefixOf l = true
    · rw [if_pos hp] at h
      simp only [Option.some.injEq, Prod.mk.injEq] at h
      rw [List.takeWhile_cons_of_pos hp] at h
      simp at h
      omega
    · rw [if_neg hp] at h
      cases h

lemma parse_paragraph_pos {ls : List Line} {html : List Char} {n : Nat}
    (h : parse_paragraph ls = some (html, n)) : 1 ≤ n := by
  cases ls with
  | nil => simp [parse_paragraph] at h
  | cons l t =>
    simp only [parse_paragraph] at h
    by_cases hp : pystrip l = []
    · rw [if_pos hp] at h
      cases h
    · rw [if_neg hp] at h
      rw [List.takeWhile_cons_of_pos (by simpa using hp)] at h
      simp only [Option.some.injEq, Prod.mk.injEq] at h
      simp at h
      omega

lemma scanStep_pos (ls : List Line) : 1 ≤ (scanStep ls).2 := by
  cases ls with
  | nil => simp [scanStep]
  | cons l t =>
    simp only [scanStep]
    cases parse_headings (pystrip l) with
    | some h => simp
    | none =>
      simp only []
      cases hu : parse_unordered_list (l :: t) with
      | some p =>
        obtain ⟨html, n⟩ := p
        simpa using parse_unordered_list_pos hu
      | none =>
        simp only []
        cases ho : parse_ordered_list (l :: t) with
        | some p =>
          obtain ⟨html, n⟩ := p
          simpa using parse_ordered_list_pos ho
        | none =>
          simp only []
          cases hq : parse_paragraph (l :: t) with
          | some p =>
            obtain ⟨html, n⟩ := p
            simpa using parse_paragraph_pos hq
          | none => simp

lemma convertLoop_fuel :
    ∀ f1 f2 (lines : List Line) (i : Nat),
      lines.length - i ≤ f1 → lines.length - i ≤ f2 →
      convertLoop f1 lines i = convertLoop f2 lines i := by
  intro f1
  induction f1 with
  | zero =>
    intro f2 lines i h1 _
    have hi : lines.length ≤ i := by omega
    cases f2 with
    | zero => rfl
    | succ b => simp [convertLoop, Nat.not_lt_of_le hi]
  | succ a ih =>
    intro f2 lines i h1 h2
    cases f2 with
    | zero =>
      have hi : lines.length ≤ i := by omega
      simp [convertLoop, Nat.not_lt_of_le hi]
    | succ b =>
      simp only [convertLoop]
      by_cases hi : i < lines.length
      · rw [if_pos hi, if_pos hi]
        have hpos := scanStep_pos (lines.drop i)
        rw [ih b lines (i + (scanStep (lines.drop i)).2) (by omega) (by omega)]
      · rw [if_neg hi, if_neg hi]

lemma convertFrom_step {lines : List Line} {i : Nat} (hi : i < lines.length) :
    convertFrom lines i =
      (scanStep (lines.drop i)).1 ++ convertFrom lines (i + (scanStep (lines.drop i)).2) := by
  unfold convertFrom
  cases hl : lines.length with
  | zero => omega
  | succ m =>
    rw [convertLoop]
    rw [if_pos (by omega)]
    have hpos := scanStep_pos (lines.drop i)
    simp only []
    rw [convertLoop_fuel m (m + 1) lines (i + (scanStep (lines.drop i)).2) (by omega) (by omega)]

lemma convertFrom_end {lines : List Line} {i : Nat} (hi : lines.length ≤ i) :
    convertFrom lines i = [] := by
  unfold convertFrom
  cases hl : lines.length with
  | zero => rfl
  | succ m =>
    rw [convertLoop]
    rw [if_neg (by omega)]

/-- C10: the block scan makes strict progress — at every in-range cursor
position the recognized block reports an advance of at least 1, the loop
emits that block's fragment and continues at the advanced cursor, and the
loop stops once the cursor reaches the end of the line sequence. -/
theorem scan_progress (lines : List Line) (i : Nat) :
    (i < lines.length →
       1 ≤ (scanStep (lines.drop i)).2
     ∧ convertFrom lines i =
         (scanStep (lines.drop i)).1 ++ convertFrom lines (i + (scanStep (lines.drop i)).2))
  ∧ (lines.length ≤ i → convertFrom lines i = []) :=
  ⟨fun hi => ⟨scanStep_pos _, convertFrom_step hi⟩, fun hi => convertFrom_end hi⟩

theorem scan_progress_witness :
    1 ≤ (scanStep (List.drop 0 ["x\n".data])).2
  ∧ convertFrom ["x\n".data] 0 =
      (scanStep (List.drop 0 ["x\n".data])).1
        ++ convertFrom ["x\n".data] (0 + (scanStep (List.drop 0 ["x\n".data])).2) :=
  (scan_progress ["x\n".data] 0).1 (by decide)

/-- C3: at a line starting with `- `, the scan recognizes the maximal run of
`- ` lines, emits one `<ul>` block with each item's trimmed remainder
inline-transformed inside `<li>`, and advances the cursor by the number of
consumed lines. -/
theorem unordered_list_rule (lines : List Line) (i : Nat) (h : i < lines.length)
    (hpre : (['-', ' ']).isPrefixOf lines[i] = true) :
    1 ≤ ((lines.drop i).takeWhile (fun x => (['-', ' ']).isPrefixOf x)).length
  ∧ convertFrom lines i =
      List.intercalate ['\n'] ("<ul>".data ::
          ((lines.drop i).takeWhile (fun x => (['-', ' ']).isPrefixOf x)).map
            (fun x => "<li>".data ++ parse_inline_markdown (pystrip (x.drop 2)) ++ "</li>".data)
          ++ ["</ul>".data]) ++ ['\n']
      ++ convertFrom lines
          (i + ((lines.drop i).takeWhile (fun x => (['-', ' ']).isPrefixOf x)).length) := by
  have hdrop : lines.drop i = lines[i] :: lines.drop (i + 1) :=
    (List.getElem_cons_drop lines i h).symm
  obtain ⟨r, hr⟩ := isPrefixOf_pair_elim hpre
  have hhead : parse_headings (pystrip lines[i]) = none :=
    parse_headings_strip_none_of_nonhash hr (by decide) (by decide)
  have hul := parse_unordered_list_eq (lines.drop (i + 1)) hpre
  have hstep : scanStep (lines.drop i) =
      (List.intercalate ['\n'] ("<ul>".data ::
          ((lines.drop i).takeWhile (fun x => (['-', ' ']).isPrefixOf x)).map
            (fun x => "<li>".data ++ parse_inline_markdown (pystrip (x.drop 2)) ++ "</li>".data)
          ++ ["</ul>".data]) ++ ['\n'],
        ((lines.drop i).takeWhile (fun x => (['-', ' ']).isPrefixOf x)).length) := by
    conv_lhs => rw [hdrop]
    simp only [scanStep]
    rw [hhead, hul]
    rw [← hdrop]
  constructor
  · rw [hdrop, List.takeWhile_cons_of_pos hpre]
    simp
  · rw [convertFrom_step h, hstep]

theorem unordered_list_rule_witness :
    convert_markdown_to_html ["- a\n".data, "- b\n".data, "\n".data] =
      "<ul>\n<li>a</li>\n<li>b</li>\n</ul>\n".data := by
  have h := (unordered_list_rule ["- a\n".data, "- b\n".data, "\n".data] 0
    (by decide) (by decide)).2
  exact h.trans (by decide)

lemma parse_unordered_list_none {l : Line} (t : List Line)
    (hp : (['-', ' ']).isPrefixOf l = false) :
    parse_unordered_list (l :: t) = none := by
  simp only [parse_unordered_list]
  rw [if_neg (by simp [hp])]

/-- C7: at a line starting with `* ` (which can be neither a heading nor an
unordered-list line), the scan applies the same run-consuming logic with
prefix `* ` and wrapper `<ol>`/`</ol>`, and advances the cursor by the
number of consumed lines. -/
theorem ordered_list_rule (lines : List Line) (i : Nat) (h : i < lines.length)
    (hpre : (['*', ' ']).isPrefixOf lines[i] = true) :
    1 ≤ ((lines.drop i).takeWhile (fun x => (['*', ' ']).isPrefixOf x)).length
  ∧ convertFrom lines i =
      List.intercalate ['\n'] ("<ol>".data ::
          ((lines.drop i).takeWhile (fun x => (['*', ' ']).isPrefixOf x)).map
            (fun x => "<li>".data ++ parse_inline_markdown (pystrip (x.drop 2)) ++ "</li>".data)
          ++ ["</ol>".data]) ++ ['\n']
      ++ convertFrom lines
          (i + ((lines.drop i).takeWhile (fun x => (['*', ' ']).isPrefixOf x)).length) := by
  have hdrop : lines.drop i = lines[i] :: lines.drop (i + 1) :=
    (List.getElem_cons_drop lines i h).symm
  obtain ⟨r, hr⟩ := isPrefixOf_pair_elim hpre
  have hhead : parse_headings (pystrip lines[i]) = none :=
    parse_headings_strip_none_of_nonhash hr (by decide) (by decide)
  have hul : parse_unordered_list (lines[i] :: lines.drop (i + 1)) = none := by
    apply parse_unordered_list_none
    rw [hr, isPrefixOf_pair]
    decide
  have hol := parse_ordered_list_eq (lines.drop (i + 1)) hpre
  have hstep : scanStep (lines.drop i) =
      (List.intercalate ['\n'] ("<ol>".data ::
          ((lines.drop i).takeWhile (fun x => (['*', ' ']).isPrefixOf x)).map
            (fun x => "<li>".data ++ parse_inline_markdown (pystrip (x.drop 2)) ++ "</li>".data)
          ++ ["</ol>".data]) ++ ['\n'],
        ((lines.drop i).takeWhile (fun x => (['*', ' ']).isPrefixOf x)).length) := by
    conv_lhs => rw [hdrop]
    simp only [scanStep]
    rw [hhead, hul, hol]
    rw [← hdrop]
  constructor
  · rw [hdrop, List.takeWhile_cons_of_pos hpre]
    simp
  · rw [convertFrom_step h, hstep]

theorem ordered_list_rule_witness :
    convert_markdown_to_html ["* a\n".data, "* b\n".data, "\n".data] =
      "<ol>\n<li>a</li>\n<li>b</li>\n</ol>\n".data := by
  have h := (ordered_list_rule ["* a\n".data, "* b\n".data, "\n".data] 0
    (by decide) (by decide)).2
  exact h.trans (by decide)

set_option maxRecDepth 40000 in
/-- C1: the paragraph check reports `len(html_para) - 2`, which equals
`2 * n - 1` for `n` consumed lines (the `<br/>` entries are counted), not
`n`: here it consumes the 3 lines `a`, `b`, `c` but reports 5, so the loop
skips the line `d` without examining it and the output has no block for it. -/
theorem paragraph_cursor_bug :
    parse_paragraph ["a\n".data, "b\n".data, "c\n".data, "\n".data, "d\n".data] =
      some ("<p>\na\n<br/>\nb\n<br/>\nc\n</p>\n".data, 5)
  ∧ (["a\n".data, "b\n".data, "c\n".data, "\n".data, "d\n".data].takeWhile
      (fun l => pystrip l ≠ [])).length = 3
  ∧ convert_markdown_to_html ["a\n".data, "b\n".data, "c\n".data, "\n".data, "d\n".data] =
      "<p>\na\n<br/>\nb\n<br/>\nc\n</p>\n".data := by
  refine ⟨by decide, by decide, by decide⟩

/-- C9: the driver reports the usage failure exactly when fewer than two
file arguments follow the script name, the missing-file failure exactly
when the input path does not exist, and otherwise runs the conversion; the
exit code is 0 exactly on the conversion path and 1 on both failure paths. -/
theorem driver_dispatch (argv : List String) (pathExists : String → Bool) :
    (pyMain argv pathExists = DriverResult.usage ↔ argv.length < 3)
  ∧ (∀ inp, pyMain argv pathExists = DriverResult.missing inp ↔
       3 ≤ argv.length ∧ argv[1]? = some inp ∧ pathExists inp = false)
  ∧ (∀ inp outp, pyMain argv pathExists = DriverResult.ok inp outp ↔
       3 ≤ argv.length ∧ argv[1]? = some inp ∧ argv[2]? = some outp ∧ pathExists inp = true)
  ∧ (exitCodeOf (pyMain argv pathExists) = 0 ↔
       ∃ inp outp, pyMain argv pathExists = DriverResult.ok inp outp) := by
  match argv with
  | [] => simp [pyMain, exitCodeOf]
  | [a] => simp [pyMain, exitCodeOf]
  | [a, b] => simp [pyMain, exitCodeOf]
  | a :: b :: c :: rest =>
    by_cases hb : pathExists b = true
    · simp [pyMain, hb, exitCodeOf]
    · simp only [Bool.not_eq_true] at hb
      simp [pyMain, hb, exitCodeOf]

theorem driver_dispatch_witness :
    pyMain ["./markdown2html.py", "README.md", "README.html"] (fun _ => false) =
      DriverResult.missing "README.md"
  ∧ pyMain ["./markdown2html.py"] (fun _ => true) = DriverResult.usage := by
  constructor
  · exact ((driver_dispatch ["./markdown2html.py", "README.md", "README.html"]
      (fun _ => false)).2.1 "README.md").mpr ⟨by decide, by decide, rfl⟩
  · exact (driver_dispatch ["./markdown2html.py"] (fun _ => true)).1.mpr (by decide)

lemma leadingHashes_replicate_append (l : List Char) :
    ∀ k, leadingHashes (List.replicate k '#' ++ l) = k + leadingHashes l := by
  intro k
  induction k with
  | zero => simp
  | succ m ih =>
    rw [List.replicate_succ, List.cons_append]
    simp [leadingHashes, ih]
    omega

lemma leadingHashes_cons_nonhash {w : Char} (l : List Char) (hw : ¬(w = '#')) :
    leadingHashes (w :: l) = 0 := by
  simp [leadingHashes, hw]

lemma take_leadingHashes : ∀ (t : List Char) (k : Nat), k ≤ leadingHashes t →
    t.take k = List.replicate k '#' := by
  intro t
  induction t with
  | nil =>
    intro k hk
    simp [leadingHashes] at hk
    subst hk
    rfl
  | cons x r ih =>
    intro k hk
    by_cases hx : x = '#'
    · subst hx
      cases k with
      | zero => rfl
      | succ m =>
        rw [List.take_succ_cons, List.replicate_succ]
        rw [ih m (by simp [leadingHashes] at hk; omega)]
    · rw [leadingHashes_cons_nonhash r hx] at hk
      interval_cases k
      rfl

lemma takeWhile_of_forall {p : Char → Bool} :
    ∀ l : List Char, (∀ x ∈ l, p x = true) → l.takeWhile p = l := by
  intro l
  induction l with
  | nil => intro _; rfl
  | cons x r ih =>
    intro h
    rw [List.takeWhile_cons_of_pos (h x (List.mem_cons_self _ _))]
    rw [ih (fun y hy => h y (List.mem_cons_of_mem x hy))]


lemma parse_headings_of_shape {k : Nat} {w : Char} {c : List Char}
    (hk1 : 1 ≤ k) (hk6 : k ≤ 6) (hw : pyIsSpace w = true) (hc : c ≠ [])
    (hcn : '\n' ∉ c) :
    parse_headings (List.replicate k '#' ++ w :: c) =
      some ("<h".data ++ (Nat.repr k).data ++ ">".data
        ++ parse_inline_markdown c
        ++ "</h".data ++ (Nat.repr k).data ++ ">".data ++ ['\n']) := by
  have hwh : ¬(w = '#') := by
    intro hh; subst hh; revert hw; decide
  have hlead : leadingHashes (List.replicate k '#' ++ w :: c) = k := by
    rw [leadingHashes_replicate_append, leadingHashes_cons_nonhash _ hwh]
    omega
  simp only [parse_headings]
  rw [hlead, if_pos ⟨hk1, hk6⟩]
  have hdrop : (List.replicate k '#' ++ w :: c).drop k = w :: c := by
    have h0 := List.drop_left (List.replicate k '#') (w :: c)
    rwa [List.length_replicate] at h0
  rw [hdrop]
  simp only []
  rw [if_pos hw]
  have htw : c.takeWhile (fun ch => ch ≠ '\n') = c :=
    takeWhile_of_forall c (fun x hx => by
      simp only [decide_eq_true_eq]
      rintro rfl
      exact hcn hx)
  rw [htw, List.drop_length]
  rw [if_pos ⟨hc, Or.inl rfl⟩]

lemma parse_headings_isSome_shape {t : List Char} (hnl : '\n' ∉ t)
    (hs : (parse_headings t).isSome = true) : SpecHeadingWs t := by
  simp only [parse_headings] at hs
  by_cases h16 : 1 ≤ leadingHashes t ∧ leadingHashes t ≤ 6
  case neg => rw [if_neg h16] at hs; simp at hs
  rw [if_pos h16] at hs
  cases hdrop : t.drop (leadingHashes t) with
  | nil => rw [hdrop] at hs; simp at hs
  | cons w rest =>
    rw [hdrop] at hs
    simp only [] at hs
    by_cases hw : pyIsSpace w = true
    case neg => rw [if_neg hw] at hs; simp at hs
    rw [if_pos hw] at hs
    have hrsub : ∀ x ∈ rest, x ∈ t := by
      intro x hx
      have hxd : x ∈ t.drop (leadingHashes t) := by
        rw [hdrop]; exact List.mem_cons_of_mem w hx
      exact List.drop_subset _ t hxd
    have htw : rest.takeWhile (fun ch => ch ≠ '\n') = rest :=
      takeWhile_of_forall rest (fun x hx => by
        simp only [decide_eq_true_eq]
        rintro rfl
        exact hnl (hrsub _ hx))
    rw [htw, List.drop_length] at hs
    by_cases hrest : rest = []
    case pos =>
      rw [if_neg (by simp [hrest])] at hs
      simp at hs
    rw [if_pos ⟨hrest, Or.inl rfl⟩] at hs
    refine ⟨leadingHashes t, w, rest, h16.1, h16.2, hw, hrest, ?_⟩
    conv_lhs => rw [← List.take_append_drop (leadingHashes t) t]
    rw [take_leadingHashes t _ (le_refl _), hdrop]

/-- C2 counterexample: the trimmed line `#` TAB `T` is not of the claimed
shape (1-6 `#` then exactly one space then content), yet the parser emits a
heading fragment for it, because the source's `\s` accepts any whitespace. -/
theorem heading_space_counterexample :
    (parse_headings (pystrip "#\tT\n".data)).isSome = true
  ∧ ¬ SpecHeadingSpace (pystrip "#\tT\n".data) := by
  constructor
  · decide
  · intro hspec
    obtain ⟨k, c, hk1, hk6, hc, heq⟩ := hspec
    have hstrip : pystrip "#\tT\n".data = ['#', '\t', 'T'] := by decide
    rw [hstrip] at heq
    have hlen := congrArg List.length heq
    simp at hlen
    have hcpos : 0 < c.length := List.length_pos.mpr hc
    have hk : k = 1 := by omega
    subst hk
    simp only [List.replicate, List.cons_append, List.nil_append] at heq
    injection heq with h1 h2
    injection h2 with h3 h4
    exact absurd h3 (by decide)

/-- C2 (amended): after trimming, the parser emits a heading if and only if
the line is 1-6 leading `#` followed by exactly one whitespace character
and then non-empty content; the emitted fragment is
`<h{k}>{inline(content)}</h{k}>` with a trailing newline, where `k` counts
the leading `#`; and the scanning loop writes that fragment and advances
the cursor by exactly 1. -/
theorem heading_rule (t : List Char) (hnl : '\n' ∉ t) :
    ((parse_headings t).isSome = true ↔ SpecHeadingWs t)
  ∧ (∀ k w c, 1 ≤ k → k ≤ 6 → pyIsSpace w = true → c ≠ [] →
      t = List.replicate k '#' ++ w :: c →
      parse_headings t = some ("<h".data ++ (Nat.repr k).data ++ ">".data
        ++ parse_inline_markdown c
        ++ "</h".data ++ (Nat.repr k).data ++ ">".data ++ ['\n']))
  ∧ (∀ (lines : List Line) (i : Nat) (hi : i < lines.length) (out : List Char),
      pystrip lines[i] = t → parse_headings t = some out →
      convertFrom lines i = out ++ convertFrom lines (i + 1)) := by
  refine ⟨⟨parse_headings_isSome_shape hnl, ?_⟩, ?_, ?_⟩
  · intro hspec
    obtain ⟨k, w, c, hk1, hk6, hw, hc, heq⟩ := hspec
    have hcn : '\n' ∉ c := by
      intro hm
      exact hnl (by rw [heq]; exact List.mem_append_right _ (List.mem_cons_of_mem w hm))
    rw [heq, parse_headings_of_shape hk1 hk6 hw hc hcn]
    rfl
  · intro k w c hk1 hk6 hw hc heq
    have hcn : '\n' ∉ c := by
      intro hm
      exact hnl (by rw [heq]; exact List.mem_append_right _ (List.mem_cons_of_mem w hm))
    rw [heq, parse_headings_of_shape hk1 hk6 hw hc hcn]
  · intro lines i hi out hstrip hsome
    have hdrop : lines.drop i = lines[i] :: lines.drop (i + 1) :=
      (List.getElem_cons_drop lines i hi).symm
    have hstep : scanStep (lines.drop i) = (out, 1) := by
      rw [hdrop]
      simp only [scanStep]
      rw [hstrip, hsome]
    rw [convertFrom_step hi, hstep]

theorem heading_rule_witness :
    SpecHeadingWs (pystrip "# Title\n".data)
  ∧ convert_markdown_to_html ["# Title\n".data] = "<h1>Title</h1>\n".data := by
  have hshape : pystrip "# Title\n".data = List.replicate 1 '#' ++ ' ' :: "Title".data := by
    decide
  constructor
  · exact (heading_rule (pystrip "# Title\n".data) (by decide)).1.mp (by decide)
  · have hsome := (heading_rule (pystrip "# Title\n".data) (by decide)).2.1
      1 ' ' "Title".data (by decide) (by decide) (by decide) (by decide) hshape
    have hconv := (heading_rule (pystrip "# Title\n".data) (by decide)).2.2
      ["# Title\n".data] 0 (by decide) _ rfl hsome
    exact hconv.trans (by decide)
